import Mathlib

/-!
Verification of the document materialization engine of
`sitegenerator/fileshandling.py`.

The Python module is embedded shallowly:

* Python strings become `Str := List Char`; a text file is the list of the
  strings produced by Python line iteration (each line keeps its trailing
  newline character).
* `str.replace` becomes `pyReplace`, the scanning loops of the three regular
  expressions (`##IMPORT (.*)`, the `[[...]]` / `<<...>>` variable patterns and
  the relative-markdown-link pattern) become the structural scanners
  `findImportTag`, `findVars` and `linkFindall`, which reproduce the
  left-to-right, advance-on-failure, continue-after-match behaviour of
  `re.findall` on these patterns.
* The filesystem is a partial map from paths to file contents; a file is
  either decodable text or binary (a `UnicodeDecodeError` is raised when a
  binary file is iterated as text).  The model contains no symlinks, so
  `os.path.realpath` is the identity on these abstract paths; `os.path.dirname`
  and `os.path.join` follow the posixpath implementations.
* Recursion through `##IMPORT` directives is not structurally bounded in the
  source (a cyclic import diverges), so the embedded interpreter carries a
  fuel bound for the nesting depth; exhausted fuel is the distinguished
  result `spin`, and theorems about terminating runs hypothesise a non-`spin`
  result.
-/

namespace FilesHandling

/-- Characters of a Python string, in order. -/
abbrev Str := List Char

/-- Boolean test that `pat` is a prefix of `s`. -/
def begins : Str → Str → Bool
  | [], _ => true
  | _ :: _, [] => false
  | p :: ps, c :: cs => if p = c then begins ps cs else false

/-- Boolean test that `suf` is a suffix of `s`. -/
def ends (s suf : Str) : Bool :=
  if suf.length ≤ s.length then s.drop (s.length - suf.length) == suf else false

/-- Scanner implementing Python `str.replace` for the nonempty pattern
`p :: ps`.  A positive skip count records characters already consumed by an
earlier match; at skip `0` the scanner tries to match the pattern at the
current position, emits `repl` on success and otherwise copies one character
and advances. -/
def pyGo (p : Char) (ps repl : Str) : Str → Nat → Str
  | [], _ => []
  | _ :: s, Nat.succ k => pyGo p ps repl s k
  | c :: s, 0 =>
    if begins (p :: ps) (c :: s) then repl ++ pyGo p ps repl s ps.length
    else c :: pyGo p ps repl s 0

/-- Python `str.replace pat repl` on `s`: every occurrence, scanned left to
right without overlap.  The empty pattern interleaves `repl` around every
character, as in Python. -/
def pyReplace (s pat repl : Str) : Str :=
  match pat with
  | [] => repl ++ s.foldr (fun c acc => c :: (repl ++ acc)) []
  | p :: ps => pyGo p ps repl s 0

/-- Scanner for `re.findall` on the variable patterns `\[\[([^\[\]]*)\]\]` and
`\<\<([^<>]*)\>\>`, generalised over the doubled opening delimiter `o` and
closing delimiter `d`.  At a candidate position the character class is matched
greedily (no backtracking can succeed because the class excludes the closing
delimiter); on failure the scan advances one character, on success it resumes
after the match. -/
def fvGo (o d : Char) : Str → Nat → List Str
  | [], _ => []
  | _ :: s, Nat.succ k => fvGo o d s k
  | c1 :: s, 0 =>
    match s with
    | [] => []
    | c2 :: s2 =>
      if c1 = o ∧ c2 = o then
        let name := s2.takeWhile (fun c => !(c == o || c == d))
        let after := s2.drop name.length
        if begins [d, d] after then name :: fvGo o d s (name.length + 3)
        else fvGo o d s 0
      else fvGo o d s 0

/-- All captures of the variable pattern with delimiters `o`, `d` on a line. -/
def findVars (o d : Char) (s : Str) : List Str := fvGo o d s 0

/-- First capture of `import_re = re.compile("##IMPORT (.*)")` on a line:
`result[0]` of `import_re.findall(line)`, i.e. everything after the first
occurrence of the marker up to (excluding) a newline. -/
def findImportTag : Str → Option Str
  | [] => none
  | c :: s =>
    if begins ("##IMPORT ".data) (c :: s) then
      some ((s.drop 8).takeWhile (fun ch => !(ch == '\n')))
    else findImportTag s

/-- Scanner for `re.findall` on
`relative_markdown_links = \(((?!http|www).[^\)]*\.md)\)`.  At an opening
parenthesis with the negative lookahead satisfied, the greedy `[^\)]*` run is
the maximal run of non-`)` characters; the match succeeds exactly when that
run ends in `.md` and is followed by `)`, capturing the dot-matched character
followed by the run. -/
def lfGo : Str → Nat → List Str
  | [], _ => []
  | _ :: s, Nat.succ k => lfGo s k
  | c :: s, 0 =>
    if c = '(' then
      if begins ("http".data) s || begins ("www".data) s then lfGo s 0
      else
        match s with
        | [] => []
        | c0 :: body =>
          if c0 = '\n' then lfGo s 0
          else
            let run := body.takeWhile (fun ch => !(ch == ')'))
            if ends run (".md".data) && begins [')'] (body.drop run.length) then
              (c0 :: run) :: lfGo s (run.length + 2)
            else lfGo s 0
    else lfGo s 0

/-- All captures of the relative-markdown-link pattern on a line. -/
def linkFindall (s : Str) : List Str := lfGo s 0

/-- One line of `reformat_links`: every found link target is replaced, on the
whole line, by itself minus its last three characters (`link_to_replace[:-3]`). -/
def reformatLine (line : Str) : Str :=
  (linkFindall line).foldl (fun l t => pyReplace l t (t.take (t.length - 3))) line

/-- Models `reformat_links`: rewrite every line of the file. -/
def reformatLinks (lines : List Str) : List Str := lines.map reformatLine

/-- Python dict lookup for the variable map (keys are unique in a dict; an
association list looked up front to back models it). -/
def varLookup : List (Str × Str) → Str → Option Str
  | [], _ => none
  | (k, v) :: rest, n => if k = n then some v else varLookup rest n

/-- One iteration of the loop of `_replace_from_map`: replace every occurrence
of the formatted pattern by the mapped value, or by the empty string while
recording the keyword as unfound. -/
def rfmStep (vars : List (Str × Str)) (o d : Char) (acc : Str × List Str)
    (kw : Str) : Str × List Str :=
  match varLookup vars kw with
  | some v => (pyReplace acc.1 (o :: o :: (kw ++ [d, d])) v, acc.2)
  | none => (pyReplace acc.1 (o :: o :: (kw ++ [d, d])) [], acc.2 ++ [kw])

/-- Models `_replace_from_map`: fold the replacement step over the keywords
found on the original line, returning the new line and the unfound keywords. -/
def replaceFromMap (vars : List (Str × Str)) (o d : Char) (line : Str) :
    Str × List Str :=
  (findVars o d line).foldl (rfmStep vars o d) (line, [])

/-- Models `_replace_line_content`: the optional pass (`<<...>>`) runs first,
then the required pass (`[[...]]`) on its output; success is false exactly
when the required pass reported an unfound keyword. -/
def replaceLineContent (vars : List (Str × Str)) (line : Str) : Str × Bool :=
  let r1 := replaceFromMap vars '<' '>' line
  let r2 := replaceFromMap vars '[' ']' r1.1
  (r2.1, r2.2.isEmpty)

/-- Models `replace_variables`: rewrite each line in place, and-accumulating
per-line success. -/
def replaceVariables (vars : List (Str × Str)) : List Str → List Str × Bool
  | [] => ([], true)
  | l :: ls =>
    let r := replaceLineContent vars l
    let rest := replaceVariables vars ls
    (r.1 :: rest.1, r.2 && rest.2)

/-- Loop of `prepend_external_link` with its 1-based line counter: the
annotation is written just before the line at which the counter equals 2. -/
def prependGo (annot : Str) : Nat → List Str → List Str
  | _, [] => []
  | k, l :: ls =>
    if k = 2 then annot :: l :: prependGo annot (k + 1) ls
    else l :: prependGo annot (k + 1) ls

/-- Models `prepend_external_link`: the annotation line is
`"> [{message}]({url})\n"`. -/
def prependExternalLink (message url : Str) (lines : List Str) : List Str :=
  prependGo ("> [".data ++ message ++ "](".data ++ url ++ [')', '\n']) 1 lines

/-- Index of the last `/` in a path, if any. -/
def lastSlashIdx : Str → Option Nat
  | [] => none
  | c :: s =>
    match lastSlashIdx s with
    | some k => some (k + 1)
    | none => if c = '/' then some 0 else none

/-- Strip trailing slashes. -/
def rstripSlashes (s : Str) : Str := (s.reverse.dropWhile (fun c => c == '/')).reverse

/-- `posixpath.dirname`: the prefix up to and including the last slash, with
trailing slashes stripped unless the prefix is all slashes. -/
def dirname (p : Str) : Str :=
  match lastSlashIdx p with
  | none => []
  | some k =>
    let head := p.take (k + 1)
    if head.all (fun c => c == '/') then head else rstripSlashes head

/-- `posixpath.join` of two components. -/
def joinPath (a b : Str) : Str :=
  if begins ['/'] b then b
  else if a = [] ∨ ends a ['/'] then a ++ b
  else a ++ '/' :: b

/-- `os.path.realpath` in the modelled filesystem: the model contains no
symlinks and paths are abstract keys, so resolution is the identity. -/
def realpath (p : Str) : Str := p

/-- Content of a file on disk: decodable text (the list of its lines) or
binary data, which raises `UnicodeDecodeError` when iterated as text.  Binary
payloads are abstracted by a tag; a verbatim copy preserves the tag. -/
inductive Content where
  | text (lines : List Str)
  | binary (data : Nat)
deriving DecidableEq

/-- The filesystem: a partial map from paths to contents. -/
def FS : Type := Str → Option Content

/-- Writing a whole file: the destination path now maps to `c`. -/
def fsUpdate (fs : FS) (p : Str) (c : Content) : FS :=
  fun q => if q = p then some c else fs q

/-- Outcome of running `_copycontent_withimports_tag` on a list of lines:
normal return with the written lines and the success flag, an escaping
`UnicodeDecodeError` (`exn`), or exhaustion of the nesting-depth fuel
(`spin`, which on the Python side is divergence or stack overflow of a
cyclic import chain). -/
inductive CopyRes where
  | ok (out : List Str) (success : Bool)
  | exn
  | spin
deriving DecidableEq

/-- One level of `_copycontent_withimports_tag`: process the lines of the
current file, whose directory is `dir`, delegating nested imports to
`recurse` (which receives the resolved path and the lines of the imported
text file).  A missing import logs, records failure and continues; a
binary import raises; otherwise results and flags accumulate in source
order. -/
def copyLines (recurse : Str → List Str → CopyRes) (fs : FS) (dir : Str) :
    List Str → CopyRes
  | [] => .ok [] true
  | line :: rest =>
    match findImportTag line with
    | none =>
      match copyLines recurse fs dir rest with
      | .ok out s => .ok (line :: out) s
      | r => r
    | some rel =>
      match fs (joinPath dir rel) with
      | none =>
        match copyLines recurse fs dir rest with
        | .ok out _ => .ok out false
        | r => r
      | some (.binary _) => .exn
      | some (.text ls) =>
        match recurse (joinPath dir rel) ls with
        | .ok out1 s1 =>
          match copyLines recurse fs dir rest with
          | .ok out2 s2 => .ok (out1 ++ out2) (s1 && s2)
          | r => r
        | r => r

/-- Models `_copycontent_withimports_tag` with nesting fuel: each import
directive descends with one unit less, and at fuel `0` any import directive
spins.  The directory of an imported file is
`os.path.dirname(os.path.realpath(path))`, as in the source. -/
def copyRun : Nat → FS → Str → List Str → CopyRes
  | 0, fs, dir, lines => copyLines (fun _ _ => .spin) fs dir lines
  | Nat.succ f, fs, dir, lines =>
    copyLines (fun p ls => copyRun f fs (dirname (realpath p)) ls) fs dir lines

/-- Models `import_and_copy_file`.  The destination is opened for writing
(created empty) before the source is opened, so a missing source still leaves
an empty destination and returns failure; a `UnicodeDecodeError` anywhere
(top-level binary source, or a binary file reached through imports) falls
back to `shutil.copy2`, a verbatim copy of the top-level source, with the
success flag still `True`.  `none` is returned when the run spins. -/
def copyFileResolvingImports (fuel : Nat) (fs : FS) (src dst : Str) :
    Option (FS × Bool) :=
  match fs src with
  | none => some (fsUpdate fs dst (.text []), false)
  | some (.binary b) => some (fsUpdate fs dst (.binary b), true)
  | some (.text ls) =>
    match copyRun fuel fs (dirname (realpath src)) ls with
    | .spin => none
    | .exn => some (fsUpdate fs dst (.text ls), true)
    | .ok out s => some (fsUpdate fs dst (.text out), s)

/-- Modelled from the spec wording "success is false if any import anywhere in
the tree (including nested) failed to resolve": an independent traversal of
the import tree that reports whether some import directive referenced a path
that could not be opened.  `none` when the fuel bound is hit. -/
def anyFailedLines (recurse : Str → List Str → Option Bool) (fs : FS) (dir : Str) :
    List Str → Option Bool
  | [] => some false
  | line :: rest =>
    match findImportTag line with
    | none => anyFailedLines recurse fs dir rest
    | some rel =>
      match fs (joinPath dir rel) with
      | none =>
        match anyFailedLines recurse fs dir rest with
        | some _ => some true
        | none => none
      | some (.binary _) => none
      | some (.text ls) =>
        match recurse (joinPath dir rel) ls, anyFailedLines recurse fs dir rest with
        | some a, some b => some (a || b)
        | _, _ => none

/-- Fuel-bounded wrapper for `anyFailedLines`. -/
def anyFailed : Nat → FS → Str → List Str → Option Bool
  | 0, fs, dir, lines => anyFailedLines (fun _ _ => none) fs dir lines
  | Nat.succ f, fs, dir, lines =>
    anyFailedLines (fun p ls => anyFailed f fs (dirname (realpath p)) ls) fs dir lines

/-- Modelled from the spec wording "the destination still contains everything
that could be resolved": the best-effort assembly that splices every
resolvable import and drops the directive lines of unresolvable ones,
keeping every other line. -/
def resolvedLines (recurse : Str → List Str → Option (List Str)) (fs : FS)
    (dir : Str) : List Str → Option (List Str)
  | [] => some []
  | line :: rest =>
    match findImportTag line with
    | none =>
      match resolvedLines recurse fs dir rest with
      | some out => some (line :: out)
      | none => none
    | some rel =>
      match fs (joinPath dir rel) with
      | none => resolvedLines recurse fs dir rest
      | some (.binary _) => none
      | some (.text ls) =>
        match recurse (joinPath dir rel) ls, resolvedLines recurse fs dir rest with
        | some o1, some o2 => some (o1 ++ o2)
        | _, _ => none

/-- Fuel-bounded wrapper for `resolvedLines`. -/
def resolvedOut : Nat → FS → Str → List Str → Option (List Str)
  | 0, fs, dir, lines => resolvedLines (fun _ _ => none) fs dir lines
  | Nat.succ f, fs, dir, lines =>
    resolvedLines (fun p ls => resolvedOut f fs (dirname (realpath p)) ls) fs dir lines

/-- Traversal that reports whether the recursive import resolution encounters
an undecodable (binary) imported file, in the order the source walks the
tree; a missing import is skipped (resolution continues past it). -/
def hitsBinaryLines (recurse : Str → List Str → Option Bool) (fs : FS) (dir : Str) :
    List Str → Option Bool
  | [] => some false
  | line :: rest =>
    match findImportTag line with
    | none => hitsBinaryLines recurse fs dir rest
    | some rel =>
      match fs (joinPath dir rel) with
      | none => hitsBinaryLines recurse fs dir rest
      | some (.binary _) => some true
      | some (.text ls) =>
        match recurse (joinPath dir rel) ls with
        | some true => some true
        | some false => hitsBinaryLines recurse fs dir rest
        | none => none

/-- Fuel-bounded wrapper for `hitsBinaryLines`. -/
def hitsBinary : Nat → FS → Str → List Str → Option Bool
  | 0, fs, dir, lines => hitsBinaryLines (fun _ _ => none) fs dir lines
  | Nat.succ f, fs, dir, lines =>
    hitsBinaryLines (fun p ls => hitsBinary f fs (dirname (realpath p)) ls) fs dir lines

/-! Concrete filesystems and documents used to instantiate the theorems. -/

/-- An empty filesystem: no path exists. -/
def fsEmpty : FS := fun _ => none

/-- A filesystem whose only file `a` contains one unresolvable import. -/
def fsOneBad : FS := fun p =>
  if p = "a".data then
    some (.text ["x\n".data, "##IMPORT missing\n".data, "y\n".data])
  else none

/-- The lines of file `a` of `fsOneBad`. -/
def linesOneBad : List Str := ["x\n".data, "##IMPORT missing\n".data, "y\n".data]

/-- A filesystem with a two-level import chain `A` imports `B` imports `C`. -/
def fsChain : FS := fun p =>
  if p = "A".data then some (.text ["1\n".data, "##IMPORT B\n".data, "2\n".data])
  else if p = "B".data then some (.text ["3\n".data, "##IMPORT C\n".data, "4\n".data])
  else if p = "C".data then some (.text ["5\n".data])
  else none

/-- A filesystem whose only file `s` is plain text without directives. -/
def fsPlain : FS := fun p =>
  if p = "s".data then some (.text ["hello\n".data, "world\n".data]) else none

/-- A filesystem where text file `s` imports the binary file `b`. -/
def fsBinImport : FS := fun p =>
  if p = "s".data then some (.text ["a\n".data, "##IMPORT b\n".data])
  else if p = "b".data then some (.binary 7)
  else none

/-! A structured view of a line for reasoning about one variable pass: a line
is a concatenation of segments, each either inert text (not containing the
opening delimiter of the pass) or a well-formed placeholder hole. -/

/-- One segment of a line with respect to a delimiter pair. -/
inductive Seg where
  | raw (s : Str)
  | hole (n : Str)
deriving DecidableEq

/-- Rendering of a segment: a hole `n` renders as `oo n dd`. -/
def rendSeg (o d : Char) : Seg → Str
  | .raw s => s
  | .hole n => o :: o :: (n ++ [d, d])

/-- Rendering of a segment list by concatenation. -/
def rendSegs (o d : Char) (segs : List Seg) : Str :=
  segs.foldr (fun sg acc => rendSeg o d sg ++ acc) []

/-- Well-formedness of a segment: inert text avoids the opening delimiter and
hole names avoid both delimiters (matching the regex character classes). -/
def segOk (o d : Char) : Seg → Prop
  | .raw s => ∀ c ∈ s, c ≠ o
  | .hole n => ∀ c ∈ n, c ≠ o ∧ c ≠ d

/-- Substituting one keyword: holes named `kw` become the inert value `v`. -/
def substSeg (kw v : Str) : Seg → Seg
  | .hole n => if n = kw then .raw v else .hole n
  | .raw s => .raw s

/-- The value substituted for a keyword: the mapped value, or the empty
string when the keyword is unmapped. -/
def lookupD (vars : List (Str × Str)) (n : Str) : Str := (varLookup vars n).getD []

/-- Sequential substitution of a list of keywords, as the replacement fold
performs it. -/
def applyKws (vars : List (Str × Str)) : List Str → List Seg → List Seg
  | [], segs => segs
  | kw :: kws, segs => applyKws vars kws (segs.map (substSeg kw (lookupD vars kw)))

/-- The hole names of a segment list, in order. -/
def holeNames (segs : List Seg) : List Str :=
  segs.filterMap (fun sg => match sg with | .hole n => some n | .raw _ => none)

/-! A structured line for the full two-pass substitution: literal text,
required placeholders `[[n]]` and optional placeholders `<<n>>`. -/

/-- One token of a structured line. -/
inductive Tok where
  | lit (s : Str)
  | req (n : Str)
  | opt (n : Str)
deriving DecidableEq

/-- Rendering of a token. -/
def renderTok : Tok → Str
  | .lit s => s
  | .req n => '[' :: '[' :: (n ++ [']', ']'])
  | .opt n => '<' :: '<' :: (n ++ ['>', '>'])

/-- Rendering of a token list by concatenation. -/
def renderToks (ts : List Tok) : Str := ts.foldr (fun t acc => renderTok t ++ acc) []

/-- A clean character is none of the four placeholder delimiters. -/
def cleanChar (c : Char) : Prop := c ≠ '[' ∧ c ≠ ']' ∧ c ≠ '<' ∧ c ≠ '>'

instance (c : Char) : Decidable (cleanChar c) := by
  unfold cleanChar
  infer_instance

/-- Well-formedness of a token: literal text and placeholder names are clean. -/
def tokOk : Tok → Prop
  | .lit s => ∀ c ∈ s, cleanChar c
  | .req n => ∀ c ∈ n, cleanChar c
  | .opt n => ∀ c ∈ n, cleanChar c

instance (t : Tok) : Decidable (tokOk t) :=
  match t with
  | .lit s => inferInstanceAs (Decidable (∀ c ∈ s, cleanChar c))
  | .req n => inferInstanceAs (Decidable (∀ c ∈ n, cleanChar c))
  | .opt n => inferInstanceAs (Decidable (∀ c ∈ n, cleanChar c))

/-- View of a token for the optional pass: optional placeholders are holes,
everything else is inert. -/
def optView : Tok → Seg
  | .opt n => .hole n
  | .lit s => .raw s
  | .req n => .raw ('[' :: '[' :: (n ++ [']', ']']))

/-- View of a token for the required pass. -/
def reqView : Tok → Seg
  | .req n => .hole n
  | .lit s => .raw s
  | .opt n => .raw ('<' :: '<' :: (n ++ ['>', '>']))

/-- The optional placeholder names of a line, in order. -/
def optNames (ts : List Tok) : List Str :=
  ts.filterMap (fun t => match t with | .opt n => some n | _ => none)

/-- The required placeholder names of a line, in order. -/
def reqNames (ts : List Tok) : List Str :=
  ts.filterMap (fun t => match t with | .req n => some n | _ => none)

/-- Substituting every optional placeholder by its (defaulted) mapped value. -/
def substOptAll (vars : List (Str × Str)) : Tok → Tok
  | .opt n => .lit (lookupD vars n)
  | t => t

/-- Substituting every required placeholder by its (defaulted) mapped value. -/
def substReqAll (vars : List (Str × Str)) : Tok → Tok
  | .req n => .lit (lookupD vars n)
  | t => t

/-- Modelled from the spec: the substitution a token should receive — literal
text unchanged, each placeholder occurrence replaced by the mapped value of
its name, or by the empty string when the name is unmapped. -/
def specSubTok (vars : List (Str × Str)) : Tok → Str
  | .lit s => s
  | .req n => lookupD vars n
  | .opt n => lookupD vars n

/-- Modelled from the spec: the expected output line after substitution. -/
def specOut (vars : List (Str × Str)) (ts : List Tok) : Str :=
  ts.foldr (fun t acc => specSubTok vars t ++ acc) []

/-- Modelled from the spec: success exactly when every required placeholder
name on the line is mapped. -/
def specSuccess (vars : List (Str × Str)) (ts : List Tok) : Bool :=
  (reqNames ts).all (fun n => (varLookup vars n).isSome)

/-- The token structure of the example line
`See [[GREETING]], <<NAME>> <<NAME>>!`. -/
def toksExample : List Tok :=
  [.lit "See ".data, .req "GREETING".data, .lit ", ".data,
   .opt "NAME".data, .lit " ".data, .opt "NAME".data, .lit "!".data]

/-- The variable map of the example: only `GREETING` is mapped. -/
def varsExample : List (Str × Str) := [("GREETING".data, "hi".data)]

/-- A plain link-name character: a lowercase letter other than `h` and `w`
(ruling the name out of the `http`/`www` lookahead and of every structural
character of the link pattern). -/
def plainChar (c : Char) : Prop :=
  'a' ≤ c ∧ c ≤ 'z' ∧ c ≠ 'h' ∧ c ≠ 'w'

instance (c : Char) : Decidable (plainChar c) := by
  unfold plainChar
  infer_instance

/-! General lemmas about the embedded operations. -/

theorem plain_facts (c : Char) (h : plainChar c) :
    c ≠ '(' ∧ c ≠ ')' ∧ c ≠ '\n' ∧ c ≠ ' ' ∧ c ≠ 'h' ∧ c ≠ 'w' := by
  obtain ⟨h1, _, h3, h4⟩ := h
  refine ⟨?_, ?_, ?_, ?_, h3, h4⟩ <;>
    · intro heq
      rw [heq] at h1
      exact absurd h1 (by decide)

theorem begins_head_ne (p c : Char) (ps s : Str) (h : p ≠ c) :
    begins (p :: ps) (c :: s) = false := by
  simp [begins, h]

theorem begins_append_self : ∀ (l t : Str), begins l (l ++ t) = true := by
  intro l t
  induction l with
  | nil => rfl
  | cons c cs ih => simp [begins, ih]

theorem takeWhile_append_all (p : Char → Bool) :
    ∀ (a b : Str), (∀ c ∈ a, p c = true) →
    List.takeWhile p (a ++ b) = a ++ List.takeWhile p b := by
  intro a b h
  induction a with
  | nil => rfl
  | cons c cs ih =>
    have hc : p c = true := h c (by simp)
    simp only [List.cons_append, List.takeWhile_cons, hc, if_true]
    rw [ih (fun d hd => h d (by simp [hd]))]

theorem pyGo_skip (p : Char) (ps r : Str) :
    ∀ (a s : Str), pyGo p ps r (a ++ s) a.length = pyGo p ps r s 0 := by
  intro a
  induction a with
  | nil => intro s; rfl
  | cons c cs ih =>
    intro s
    simp only [List.cons_append, List.length_cons, pyGo, List.append_eq, ih]

theorem pyGo_chunk (p : Char) (ps r : Str) :
    ∀ (a s : Str), (∀ c ∈ a, c ≠ p) →
    pyGo p ps r (a ++ s) 0 = a ++ pyGo p ps r s 0 := by
  intro a
  induction a with
  | nil => intro s _; rfl
  | cons c cs ih =>
    intro s h
    have hc : p ≠ c := fun he => (h c (by simp)) he.symm
    simp only [List.cons_append, pyGo, begins_head_ne p c _ _ hc, Bool.false_eq_true,
      if_false, List.nil_append, List.append_eq]
    rw [ih s (fun d hd => h d (by simp [hd]))]

theorem lfGo_skip : ∀ (a s : Str), lfGo (a ++ s) a.length = lfGo s 0 := by
  intro a
  induction a with
  | nil => intro s; rfl
  | cons c cs ih =>
    intro s
    simp only [List.cons_append, List.length_cons, lfGo, List.append_eq, ih]

theorem lfGo_chunk : ∀ (a s : Str), (∀ c ∈ a, c ≠ '(') → lfGo (a ++ s) 0 = lfGo s 0 := by
  intro a
  induction a with
  | nil => intro s _; rfl
  | cons c cs ih =>
    intro s h
    have hc : ¬ c = '(' := h c (by simp)
    simp only [List.cons_append, lfGo, hc, if_false]
    exact ih s (fun d hd => h d (by simp [hd]))

theorem fsUpdate_self (fs : FS) (p : Str) (c : Content) : fsUpdate fs p c p = some c := by
  simp [fsUpdate]

theorem prependGo_of_ge_three (a : Str) :
    ∀ (ls : List Str) (k : Nat), 3 ≤ k → prependGo a k ls = ls := by
  intro ls
  induction ls with
  | nil => intro k _; rfl
  | cons l rest ih =>
    intro k hk
    have hne : ¬ k = 2 := by omega
    simp [prependGo, hne, ih (k + 1) (by omega)]

theorem reformatLine_of_no_match (l : Str) (h : linkFindall l = []) :
    reformatLine l = l := by
  simp [reformatLine, h]

theorem reformatLinks_of_settled :
    ∀ doc : List Str, (∀ l ∈ doc, linkFindall l = []) → reformatLinks doc = doc := by
  intro doc h
  induction doc with
  | nil => rfl
  | cons l rest ih =>
    have h1 : linkFindall l = [] := h l (by simp)
    have h2 := ih (fun x hx => h x (by simp [hx]))
    simp only [reformatLinks, List.map_cons] at h2 ⊢
    rw [reformatLine_of_no_match l h1, h2]

theorem copyLines_noimport (recurse : Str → List Str → CopyRes) (fs : FS) (dir : Str) :
    ∀ lines : List Str, (∀ l ∈ lines, findImportTag l = none) →
    copyLines recurse fs dir lines = .ok lines true := by
  intro lines h
  induction lines with
  | nil => rfl
  | cons l rest ih =>
    have hl : findImportTag l = none := h l (by simp)
    have ihe := ih (fun x hx => h x (by simp [hx]))
    simp [copyLines, hl, ihe]

theorem copyRun_noimport (fuel : Nat) (fs : FS) (dir : Str) (lines : List Str)
    (h : ∀ l ∈ lines, findImportTag l = none) :
    copyRun fuel fs dir lines = .ok lines true := by
  cases fuel with
  | zero => exact copyLines_noimport _ fs dir lines h
  | succ f => exact copyLines_noimport _ fs dir lines h

/-! Theorems about the claims. -/

/-- C4 (counterexample): on the one-line document `["Title\n"]`, which has at
least one line, `prepend_external_link` inserts nothing at all — the
annotation is only written when the counter reaches a second line — refuting
the claim that it is inserted as the new second line for every document with
at least one line. -/
theorem prepend_single_line_cex :
    prependExternalLink ("source".data) ("http://x".data) ["Title\n".data] =
      ["Title\n".data] ∧
    prependExternalLink ("source".data) ("http://x".data) ["Title\n".data] ≠
      ["Title\n".data, "> [source](http://x)\n".data] := by
  exact ⟨rfl, by decide⟩

/-- C4 (amended): for every document with at least two lines,
`prepend_external_link` leaves the first line unchanged, inserts the single
annotation line `> [message](url)` immediately after it as the new second
line, and copies all remaining lines unchanged.  (A one-line document is
returned unchanged, see the counterexample.) -/
theorem prepend_inserts_second_line (message url l1 l2 : Str) (rest : List Str) :
    prependExternalLink message url (l1 :: l2 :: rest) =
      l1 :: ("> [".data ++ message ++ "](".data ++ url ++ [')', '\n']) :: l2 :: rest := by
  simp [prependExternalLink, prependGo, prependGo_of_ge_three _ rest 3 (by omega)]

/-- C5 (counterexample): with an empty filesystem the top-level source `s`
does not exist; `import_and_copy_file` returns failure, but the destination
`d` was already opened for writing and therefore exists as an empty file,
refuting the claim that the destination does not exist on completion in the
source-not-found case. -/
theorem missing_source_dest_created_cex :
    copyFileResolvingImports 1 fsEmpty ("s".data) ("d".data) =
      some (fsUpdate fsEmpty ("d".data) (.text []), false) ∧
    fsUpdate fsEmpty ("d".data) (Content.text []) ("d".data) ≠ none := by
  exact ⟨rfl, by simp [fsUpdate]⟩

/-- C5 (amended): when the top-level source path does not exist,
`import_and_copy_file` returns `false` and the destination exists as an empty
file (the destination is opened for writing before the source is opened); on
every terminating execution path the destination file exists on completion. -/
theorem dest_exists_on_completion (fuel : Nat) (fs : FS) (src dst : Str)
    (fs2 : FS) (s : Bool)
    (h : copyFileResolvingImports fuel fs src dst = some (fs2, s)) :
    fs2 dst ≠ none ∧
      (fs src = none → fs2 = fsUpdate fs dst (.text []) ∧ s = false) := by
  unfold copyFileResolvingImports at h
  cases hsrc : fs src with
  | none =>
    rw [hsrc] at h
    simp only [Option.some.injEq, Prod.mk.injEq] at h
    obtain ⟨h1, h2⟩ := h
    subst h1
    subst h2
    exact ⟨by simp [fsUpdate_self], fun _ => ⟨rfl, rfl⟩⟩
  | some c =>
    cases c with
    | binary b =>
      rw [hsrc] at h
      simp only [Option.some.injEq, Prod.mk.injEq] at h
      obtain ⟨h1, h2⟩ := h
      subst h1
      exact ⟨by simp [fsUpdate_self],
        fun hn => by simp [hsrc] at hn⟩
    | text ls =>
      rw [hsrc] at h
      simp only at h
      cases hrun : copyRun fuel fs (dirname (realpath src)) ls with
      | spin => rw [hrun] at h; cases h
      | exn =>
        rw [hrun] at h
        simp only [Option.some.injEq, Prod.mk.injEq] at h
        obtain ⟨h1, h2⟩ := h
        subst h1
        exact ⟨by simp [fsUpdate_self],
          fun hn => by simp [hsrc] at hn⟩
      | ok out s2 =>
        rw [hrun] at h
        simp only [Option.some.injEq, Prod.mk.injEq] at h
        obtain ⟨h1, h2⟩ := h
        subst h1
        exact ⟨by simp [fsUpdate_self],
          fun hn => by simp [hsrc] at hn⟩

/-- C5 (witness): the amended theorem applied to the empty filesystem. -/
theorem dest_exists_on_completion_wit :
    fsUpdate fsEmpty ("d".data) (Content.text []) ("d".data) ≠ none := by
  exact (dest_exists_on_completion 1 fsEmpty ("s".data) ("d".data)
    (fsUpdate fsEmpty ("d".data) (.text [])) false rfl).1

/-- C6 (counterexample): on the one-line document `(a.md.md)\n` one
application of `reformat_links` produces `(a.md)\n`, which still matches the
relative-link pattern, so a second application produces `(a)\n`: the
operation is not idempotent. -/
theorem reformat_not_idempotent_cex :
    reformatLinks (reformatLinks ["(a.md.md)\n".data]) ≠
      reformatLinks ["(a.md.md)\n".data] := by
  decide

/-- C6 (amended): `reformat_links` is idempotent on every document whose
once-transformed lines contain no further relative-markdown-link match (in
particular whenever no stripped target itself still ends in `.md`); a second
application changes the file exactly when some once-transformed line still
matches, as in the counterexample. -/
theorem reformat_idempotent_of_settled (doc : List Str)
    (h : ∀ l ∈ reformatLinks doc, linkFindall l = []) :
    reformatLinks (reformatLinks doc) = reformatLinks doc := by
  exact reformatLinks_of_settled (reformatLinks doc) h

/-- C6 (witness): the amended theorem applied to the one-line document
`[guide](install.md)`, whose reformatted form `[guide](install)` has no
remaining match. -/
theorem reformat_idempotent_of_settled_wit :
    (∀ l ∈ reformatLinks ["[guide](install.md)\n".data], linkFindall l = []) ∧
    reformatLinks (reformatLinks ["[guide](install.md)\n".data]) =
      reformatLinks ["[guide](install.md)\n".data] := by
  exact ⟨by decide, reformat_idempotent_of_settled _ (by decide)⟩

/-- C8: for every decodable text source all of whose lines are free of
`##IMPORT` directives, `import_and_copy_file` succeeds and the destination
content is byte-identical to the source (the same list of lines, each copied
verbatim). -/
theorem copy_identity_no_tags (fuel : Nat) (fs : FS) (src dst : Str)
    (ls : List Str) (hsrc : fs src = some (.text ls))
    (hni : ∀ l ∈ ls, findImportTag l = none) :
    copyFileResolvingImports fuel fs src dst =
      some (fsUpdate fs dst (.text ls), true) := by
  simp [copyFileResolvingImports, hsrc,
    copyRun_noimport fuel fs (dirname (realpath src)) ls hni]

theorem copyLines_mirror
    (recurse : Str → List Str → CopyRes)
    (rfail : Str → List Str → Option Bool)
    (rres : Str → List Str → Option (List Str))
    (fs : FS) (dir : Str)
    (hrec : ∀ p ls out s, recurse p ls = .ok out s →
      rfail p ls = some (!s) ∧ rres p ls = some out) :
    ∀ (lines out : List Str) (s : Bool), copyLines recurse fs dir lines = .ok out s →
      anyFailedLines rfail fs dir lines = some (!s) ∧
      resolvedLines rres fs dir lines = some out := by
  intro lines
  induction lines with
  | nil =>
    intro out s h
    simp only [copyLines, CopyRes.ok.injEq] at h
    obtain ⟨h1, h2⟩ := h
    subst h1
    subst h2
    exact ⟨rfl, rfl⟩
  | cons line rest ih =>
    intro out s h
    simp only [copyLines] at h
    cases htag : findImportTag line with
    | none =>
      simp only [htag] at h
      cases hrest : copyLines recurse fs dir rest with
      | ok out2 s2 =>
        simp only [hrest] at h
        simp only [CopyRes.ok.injEq] at h
        obtain ⟨h1, h2⟩ := h
        subst h1
        subst h2
        obtain ⟨ihf, ihr⟩ := ih out2 s2 hrest
        simp [anyFailedLines, resolvedLines, htag, ihf, ihr]
      | exn => simp only [hrest] at h; cases h
      | spin => simp only [hrest] at h; cases h
    | some rel =>
      simp only [htag] at h
      cases hfsp : fs (joinPath dir rel) with
      | none =>
        simp only [hfsp] at h
        cases hrest : copyLines recurse fs dir rest with
        | ok out2 s2 =>
          simp only [hrest] at h
          simp only [CopyRes.ok.injEq] at h
          obtain ⟨h1, h2⟩ := h
          subst h1
          subst h2
          obtain ⟨ihf, ihr⟩ := ih out2 s2 hrest
          simp [anyFailedLines, resolvedLines, htag, hfsp, ihf, ihr]
        | exn => simp only [hrest] at h; cases h
        | spin => simp only [hrest] at h; cases h
      | some c =>
        cases c with
        | binary b => simp only [hfsp] at h; cases h
        | text ls =>
          simp only [hfsp] at h
          cases hin : recurse (joinPath dir rel) ls with
          | ok out1 s1 =>
            simp only [hin] at h
            cases hrest : copyLines recurse fs dir rest with
            | ok out2 s2 =>
              simp only [hrest] at h
              simp only [CopyRes.ok.injEq] at h
              obtain ⟨h1, h2⟩ := h
              subst h1
              subst h2
              obtain ⟨hf1, hr1⟩ := hrec _ _ _ _ hin
              obtain ⟨ihf, ihr⟩ := ih out2 s2 hrest
              simp [anyFailedLines, resolvedLines, htag, hfsp, hf1, hr1, ihf, ihr,
                Bool.not_and]
            | exn => simp only [hrest] at h; cases h
            | spin => simp only [hrest] at h; cases h
          | exn => simp only [hin] at h; cases h
          | spin => simp only [hin] at h; cases h

theorem copyRun_mirror (fs : FS) :
    ∀ (fuel : Nat) (dir : Str) (lines out : List Str) (s : Bool),
      copyRun fuel fs dir lines = .ok out s →
      anyFailed fuel fs dir lines = some (!s) ∧
      resolvedOut fuel fs dir lines = some out := by
  intro fuel
  induction fuel with
  | zero =>
    intro dir lines out s h
    exact copyLines_mirror (fun _ _ => .spin) (fun _ _ => none) (fun _ _ => none)
      fs dir (fun p ls out1 s1 hh => by cases hh) lines out s h
  | succ f ihf =>
    intro dir lines out s h
    exact copyLines_mirror _ _ _ fs dir
      (fun p ls out1 s1 hh => ihf (dirname (realpath p)) ls out1 s1 hh) lines out s h

theorem copyLines_append_noimport (recurse : Str → List Str → CopyRes)
    (fs : FS) (dir : Str) (ys : List Str) :
    ∀ xs : List Str, (∀ l ∈ xs, findImportTag l = none) →
    copyLines recurse fs dir (xs ++ ys) =
      match copyLines recurse fs dir ys with
      | .ok out s => .ok (xs ++ out) s
      | r => r := by
  intro xs h
  induction xs with
  | nil =>
    cases hys : copyLines recurse fs dir ys <;> simp [hys]
  | cons x xs ih =>
    have hx : findImportTag x = none := h x (by simp)
    have ihe := ih (fun l hl => h l (by simp [hl]))
    cases hys : copyLines recurse fs dir ys with
    | ok out s => simp [List.cons_append, copyLines, hx, ihe, hys]
    | exn => simp [List.cons_append, copyLines, hx, ihe, hys]
    | spin => simp [List.cons_append, copyLines, hx, ihe, hys]

theorem copyLines_hits
    (recurse : Str → List Str → CopyRes) (rhit : Str → List Str → Option Bool)
    (fs : FS) (dir : Str)
    (hrecT : ∀ p ls, rhit p ls = some true → recurse p ls = .exn)
    (hrecF : ∀ p ls, rhit p ls = some false →
      ∃ out s, recurse p ls = .ok out s) :
    ∀ lines : List Str,
      (hitsBinaryLines rhit fs dir lines = some true →
        copyLines recurse fs dir lines = .exn) ∧
      (hitsBinaryLines rhit fs dir lines = some false →
        ∃ out s, copyLines recurse fs dir lines = .ok out s) := by
  intro lines
  induction lines with
  | nil =>
    refine ⟨fun h => ?_, fun _ => ⟨[], true, rfl⟩⟩
    simp [hitsBinaryLines] at h
  | cons line rest ih =>
    obtain ⟨ihT, ihF⟩ := ih
    cases htag : findImportTag line with
    | none =>
      constructor
      · intro h
        simp only [hitsBinaryLines, htag] at h
        simp [copyLines, htag, ihT h]
      · intro h
        simp only [hitsBinaryLines, htag] at h
        obtain ⟨out, s, hok⟩ := ihF h
        exact ⟨line :: out, s, by simp [copyLines, htag, hok]⟩
    | some rel =>
      cases hfsp : fs (joinPath dir rel) with
      | none =>
        constructor
        · intro h
          simp only [hitsBinaryLines, htag, hfsp] at h
          simp [copyLines, htag, hfsp, ihT h]
        · intro h
          simp only [hitsBinaryLines, htag, hfsp] at h
          obtain ⟨out, s, hok⟩ := ihF h
          exact ⟨out, false, by simp [copyLines, htag, hfsp, hok]⟩
      | some c =>
        cases c with
        | binary b =>
          constructor
          · intro _
            simp [copyLines, htag, hfsp]
          · intro h
            simp [hitsBinaryLines, htag, hfsp] at h
        | text ls =>
          cases hh : rhit (joinPath dir rel) ls with
          | none =>
            constructor
            · intro h
              simp [hitsBinaryLines, htag, hfsp, hh] at h
            · intro h
              simp [hitsBinaryLines, htag, hfsp, hh] at h
          | some b =>
            cases b with
            | true =>
              constructor
              · intro _
                simp [copyLines, htag, hfsp, hrecT _ _ hh]
              · intro h
                simp [hitsBinaryLines, htag, hfsp, hh] at h
            | false =>
              obtain ⟨out1, s1, hok1⟩ := hrecF _ _ hh
              constructor
              · intro h
                simp only [hitsBinaryLines, htag, hfsp, hh] at h
                simp [copyLines, htag, hfsp, hok1, ihT h]
              · intro h
                simp only [hitsBinaryLines, htag, hfsp, hh] at h
                obtain ⟨out2, s2, hok2⟩ := ihF h
                exact ⟨out1 ++ out2, s1 && s2,
                  by simp [copyLines, htag, hfsp, hok1, hok2]⟩

theorem copyRun_hits (fs : FS) :
    ∀ (fuel : Nat) (dir : Str) (lines : List Str),
      (hitsBinary fuel fs dir lines = some true →
        copyRun fuel fs dir lines = .exn) ∧
      (hitsBinary fuel fs dir lines = some false →
        ∃ out s, copyRun fuel fs dir lines = .ok out s) := by
  intro fuel
  induction fuel with
  | zero =>
    intro dir lines
    exact copyLines_hits (fun _ _ => .spin) (fun _ _ => none) fs dir
      (fun p ls hh => by cases hh) (fun p ls hh => by cases hh) lines
  | succ f ihf =>
    intro dir lines
    exact copyLines_hits _ _ fs dir
      (fun p ls hh => (ihf (dirname (realpath p)) ls).1 hh)
      (fun p ls hh => (ihf (dirname (realpath p)) ls).2 hh) lines

/-- C8 (witness): the theorem applied to a concrete two-line file. -/
theorem copy_identity_no_tags_wit :
    fsPlain ("s".data) = some (.text ["hello\n".data, "world\n".data]) ∧
    copyFileResolvingImports 1 fsPlain ("s".data) ("d".data) =
      some (fsUpdate fsPlain ("d".data)
        (.text ["hello\n".data, "world\n".data]), true) := by
  exact ⟨rfl, copy_identity_no_tags 1 fsPlain ("s".data) ("d".data)
    ["hello\n".data, "world\n".data] rfl (by decide)⟩

theorem pyGo_cons_ne (p c : Char) (ps r s : Str) (h : p ≠ c) :
    pyGo p ps r (c :: s) 0 = c :: pyGo p ps r s 0 := by
  conv_lhs => rw [pyGo]
  simp [begins_head_ne p c _ _ h]

theorem pyGo_match (p : Char) (ps r s : Str) :
    pyGo p ps r ((p :: ps) ++ s) 0 = r ++ pyGo p ps r s 0 := by
  have hb : begins (p :: ps) ((p :: ps) ++ s) = true := begins_append_self _ _
  simp only [List.cons_append] at hb ⊢
  conv_lhs => rw [pyGo]
  rw [if_pos hb]
  rw [pyGo_skip p ps r ps s]

theorem lf_step (c0 : Char) (body run : Str)
    (hla1 : begins ("http".data) (c0 :: body) = false)
    (hla2 : begins ("www".data) (c0 :: body) = false)
    (hnl : ¬ c0 = '\n')
    (hrun : body.takeWhile (fun ch => !(ch == ')')) = run)
    (hends : ends run (".md".data) = true)
    (hcl : begins [')'] (body.drop run.length) = true) :
    lfGo ('(' :: c0 :: body) 0 = (c0 :: run) :: lfGo (c0 :: body) (run.length + 2) := by
  conv_lhs => rw [lfGo]
  simp [hla1, hla2, hnl, hrun, hends, hcl]

theorem lf_core (xh : Char) (xt : Str) (hall : ∀ c ∈ xh :: xt, plainChar c) :
    lfGo ('(' :: (xh :: (xt ++ ['.', 'm', 'd', ')']))) 0 =
      [xh :: (xt ++ ['.', 'm', 'd'])] := by
  obtain ⟨hpo, hpc, hnl, hsp, hhh, hww⟩ := plain_facts xh (hall xh (by simp))
  have hxtP : ∀ c ∈ xt, (fun ch => !(ch == ')')) c = true := by
    intro c hc
    have := (plain_facts c (hall c (by simp [hc]))).2.1
    simp [this]
  have hrun : ((xt ++ ['.', 'm', 'd', ')']) : Str).takeWhile (fun ch => !(ch == ')')) =
      xt ++ ['.', 'm', 'd'] := by
    rw [takeWhile_append_all _ xt _ hxtP]
    rfl
  have hends : ends (xt ++ ['.', 'm', 'd']) (".md".data) = true := by
    have h3 : (3 : Nat) ≤ (xt ++ ['.', 'm', 'd']).length := by
      simp [List.length_append]
    have hdrop : ((xt ++ ['.', 'm', 'd']) : Str).drop
        ((xt ++ ['.', 'm', 'd']).length - 3) = ['.', 'm', 'd'] := by
      have hl : (xt ++ ['.', 'm', 'd']).length - 3 = xt.length := by
        simp [List.length_append]
      rw [hl, List.drop_left]
    simp [ends, h3, hdrop]
  have hcl : begins [')']
      (((xt ++ ['.', 'm', 'd', ')']) : Str).drop ((xt ++ ['.', 'm', 'd']).length)) = true := by
    have hsplit : (xt ++ ['.', 'm', 'd', ')'] : Str) =
        (xt ++ ['.', 'm', 'd']) ++ [')'] := by simp
    rw [hsplit, List.drop_left]
    rfl
  have hla1 : begins ("http".data) (xh :: (xt ++ ['.', 'm', 'd', ')'])) = false :=
    begins_head_ne 'h' xh _ _ (fun he => hhh he.symm)
  have hla2 : begins ("www".data) (xh :: (xt ++ ['.', 'm', 'd', ')'])) = false :=
    begins_head_ne 'w' xh _ _ (fun he => hww he.symm)
  rw [lf_step xh _ _ hla1 hla2 hnl hrun hends hcl]
  have hlen : (xt ++ ['.', 'm', 'd']).length + 2 =
      (xh :: (xt ++ ['.', 'm', 'd', ')'])).length := by
    simp [List.length_append, List.length_cons]
  rw [hlen]
  have hskip := lfGo_skip (xh :: (xt ++ ['.', 'm', 'd', ')'])) []
  rw [List.append_nil] at hskip
  rw [hskip]
  rfl

theorem py_core (p : Char) (ps r : Str)
    (h1 : p ≠ ' ') (h2 : p ≠ '(') (h3 : p ≠ ')') :
    pyGo p ps r ((p :: ps) ++ (' ' :: '(' :: ((p :: ps) ++ [')']))) 0 =
      r ++ (' ' :: '(' :: (r ++ [')'])) := by
  rw [pyGo_match p ps r (' ' :: '(' :: ((p :: ps) ++ [')']))]
  rw [pyGo_cons_ne p ' ' ps r _ h1]
  rw [pyGo_cons_ne p '(' ps r _ h2]
  rw [pyGo_match p ps r [')']]
  rw [pyGo_cons_ne p ')' ps r [] h3]
  simp [pyGo]

/-- C1: on a readable text source whose import resolution terminates normally,
`import_and_copy_file` returns `false` exactly when some import directive
anywhere in the tree (including nested imports) referenced a file that could
not be opened (`anyFailed`), and the destination then still contains every
line of each importing file that is not part of an unresolved import, with
processing continuing past failed directives (`resolvedOut`). -/
theorem copy_success_iff_unresolved (fuel : Nat) (fs : FS) (src dst : Str)
    (ls out : List Str) (s : Bool)
    (hsrc : fs src = some (.text ls))
    (hrun : copyRun fuel fs (dirname (realpath src)) ls = .ok out s) :
    copyFileResolvingImports fuel fs src dst =
      some (fsUpdate fs dst (.text out), s) ∧
    (s = false ↔ anyFailed fuel fs (dirname (realpath src)) ls = some true) ∧
    resolvedOut fuel fs (dirname (realpath src)) ls = some out := by
  obtain ⟨hf, hr⟩ := copyRun_mirror fs fuel (dirname (realpath src)) ls out s hrun
  refine ⟨by simp [copyFileResolvingImports, hsrc, hrun], ⟨?_, ?_⟩, hr⟩
  · intro hs
    subst hs
    simpa using hf
  · intro ht
    cases s with
    | false => rfl
    | true => rw [ht] at hf; simp at hf

/-- C1 (witness): the theorem applied to a file with one unresolvable import;
success is false, the missing import is reported, and both surrounding lines
are in the destination. -/
theorem copy_success_iff_unresolved_wit :
    copyFileResolvingImports 3 fsOneBad ("a".data) ("d".data) =
      some (fsUpdate fsOneBad ("d".data) (.text ["x\n".data, "y\n".data]), false) ∧
    (false = false ↔
      anyFailed 3 fsOneBad (dirname (realpath ("a".data))) linesOneBad = some true) := by
  have h := copy_success_iff_unresolved 3 fsOneBad ("a".data) ("d".data)
    linesOneBad ["x\n".data, "y\n".data] false rfl (by decide)
  exact ⟨h.1, h.2.1⟩

/-- C2: when file `A` contains an `##IMPORT` line for `B` (resolved against
the real directory of `A`), `B` contains an `##IMPORT` line for `C` (resolved
against the real directory of `B`), and `C` is import-free,
`import_and_copy_file` succeeds and the destination is exactly `A`'s lines
with the import line replaced by `B`'s content, inside which `B`'s import
line is replaced by `C`'s content. -/
theorem copy_transitive_splice (f : Nat) (fs : FS) (src dst : Str)
    (a1 a2 b1 b2 cs : List Str) (la lb : Str) (relB relC : Str)
    (hA : fs src = some (.text (a1 ++ la :: a2)))
    (ha1 : ∀ l ∈ a1, findImportTag l = none)
    (ha2 : ∀ l ∈ a2, findImportTag l = none)
    (hla : findImportTag la = some relB)
    (hB : fs (joinPath (dirname (realpath src)) relB) = some (.text (b1 ++ lb :: b2)))
    (hb1 : ∀ l ∈ b1, findImportTag l = none)
    (hb2 : ∀ l ∈ b2, findImportTag l = none)
    (hlb : findImportTag lb = some relC)
    (hC : fs (joinPath (dirname (realpath (joinPath (dirname (realpath src)) relB)))
      relC) = some (.text cs))
    (hcs : ∀ l ∈ cs, findImportTag l = none) :
    copyFileResolvingImports (f + 2) fs src dst =
      some (fsUpdate fs dst
        (.text (a1 ++ (b1 ++ (cs ++ (b2 ++ a2))))), true) := by
  have hBrun : copyRun (f + 1) fs
      (dirname (realpath (joinPath (dirname (realpath src)) relB)))
      (b1 ++ lb :: b2) = .ok (b1 ++ (cs ++ b2)) true := by
    show copyLines (fun p ls => copyRun f fs (dirname (realpath p)) ls) fs
      (dirname (realpath (joinPath (dirname (realpath src)) relB)))
      (b1 ++ lb :: b2) = .ok (b1 ++ (cs ++ b2)) true
    rw [copyLines_append_noimport _ fs _ (lb :: b2) b1 hb1]
    have hmid : copyLines (fun p ls => copyRun f fs (dirname (realpath p)) ls) fs
        (dirname (realpath (joinPath (dirname (realpath src)) relB)))
        (lb :: b2) = .ok (cs ++ b2) true := by
      simp [copyLines, hlb, hC,
        copyRun_noimport f fs _ cs hcs,
        copyLines_noimport _ fs _ b2 hb2]
    rw [hmid]
  have hArun : copyRun (f + 2) fs (dirname (realpath src)) (a1 ++ la :: a2) =
      .ok (a1 ++ ((b1 ++ (cs ++ b2)) ++ a2)) true := by
    show copyLines (fun p ls => copyRun (f + 1) fs (dirname (realpath p)) ls) fs
      (dirname (realpath src)) (a1 ++ la :: a2) =
      .ok (a1 ++ ((b1 ++ (cs ++ b2)) ++ a2)) true
    rw [copyLines_append_noimport _ fs _ (la :: a2) a1 ha1]
    have hmid : copyLines (fun p ls => copyRun (f + 1) fs (dirname (realpath p)) ls)
        fs (dirname (realpath src)) (la :: a2) =
        .ok ((b1 ++ (cs ++ b2)) ++ a2) true := by
      simp [copyLines, hla, hB, hBrun, copyLines_noimport _ fs _ a2 ha2]
    rw [hmid]
  simp [copyFileResolvingImports, hA, hArun, List.append_assoc]

/-- C2 (witness): the theorem applied to the chain `A` imports `B` imports
`C` in one directory. -/
theorem copy_transitive_splice_wit :
    copyFileResolvingImports 2 fsChain ("A".data) ("d".data) =
      some (fsUpdate fsChain ("d".data)
        (.text ["1\n".data, "3\n".data, "5\n".data, "4\n".data, "2\n".data]), true) := by
  have h := copy_transitive_splice 0 fsChain ("A".data) ("d".data)
    ["1\n".data] ["2\n".data] ["3\n".data] ["4\n".data] ["5\n".data]
    ("##IMPORT B\n".data) ("##IMPORT C\n".data) ("B".data) ("C".data)
    rfl (by decide) (by decide) (by decide) (by decide) (by decide) (by decide)
    (by decide) (by decide) (by decide)
  simpa using h

/-- C9: when the top-level source is decodable text but the recursive import
resolution encounters an undecodable (binary) imported file, the decode error
escapes the recursion, the partially assembled output is abandoned,
`import_and_copy_file` overwrites the destination with a verbatim copy of the
top-level source (every `##IMPORT` directive left unresolved in the output)
and returns `true`. -/
theorem nested_binary_fallback_copy (fuel : Nat) (fs : FS) (src dst : Str)
    (ls : List Str) (hsrc : fs src = some (.text ls))
    (hbin : hitsBinary fuel fs (dirname (realpath src)) ls = some true) :
    copyFileResolvingImports fuel fs src dst =
      some (fsUpdate fs dst (.text ls), true) := by
  have hexn := (copyRun_hits fs fuel (dirname (realpath src)) ls).1 hbin
  simp [copyFileResolvingImports, hsrc, hexn]

/-- C9 (witness): the theorem applied to a text file importing a binary file;
the destination is the verbatim source including its directive line. -/
theorem nested_binary_fallback_copy_wit :
    hitsBinary 3 fsBinImport (dirname (realpath ("s".data)))
      ["a\n".data, "##IMPORT b\n".data] = some true ∧
    copyFileResolvingImports 3 fsBinImport ("s".data) ("d".data) =
      some (fsUpdate fsBinImport ("d".data)
        (.text ["a\n".data, "##IMPORT b\n".data]), true) := by
  exact ⟨by decide, nested_binary_fallback_copy 3 fsBinImport ("s".data) ("d".data)
    ["a\n".data, "##IMPORT b\n".data] rfl (by decide)⟩

/-- C10: `reformat_links` strips the trailing three characters from every
occurrence of a matched link target on the whole line, not only from the
occurrence inside the link parentheses: for every nonempty plain name `x`
(lowercase, not starting the `http`/`www` lookahead), the line
`x.md (x.md)` — whose only pattern match is the parenthesised target `x.md` —
is rewritten to `x (x)`, the bare occurrence of `x.md` outside any link
construct being stripped as well, because `line.replace` acts on the whole
line. -/
theorem reformat_strips_all_occurrences (x : Str) (hx : x ≠ [])
    (hpl : ∀ c ∈ x, plainChar c) :
    reformatLine (x ++ ".md (".data ++ (x ++ ".md)".data)) =
      x ++ " (".data ++ (x ++ ")".data) := by
  have e1 : (".md (".data : Str) = ['.', 'm', 'd', ' ', '('] := by decide
  have e2 : (".md)".data : Str) = ['.', 'm', 'd', ')'] := by decide
  have e3 : (" (".data : Str) = [' ', '('] := by decide
  have e4 : (")".data : Str) = [')'] := by decide
  rw [e1, e2, e3, e4]
  obtain ⟨xh, xt, rfl⟩ := List.exists_cons_of_ne_nil hx
  obtain ⟨hpo, hpc, hnl, hsp, hhh, hww⟩ := plain_facts xh (hpl xh (by simp))
  have hchunk : ∀ c ∈ (xh :: xt) ++ ['.', 'm', 'd', ' '], c ≠ '(' := by
    intro c hc
    rcases List.mem_append.mp hc with h | h
    · exact (plain_facts c (hpl c h)).1
    · simp at h
      rcases h with rfl | rfl | rfl | rfl <;> decide
  have hL : (xh :: xt) ++ ['.', 'm', 'd', ' ', '('] ++ ((xh :: xt) ++ ['.', 'm', 'd', ')']) =
      ((xh :: xt) ++ ['.', 'm', 'd', ' ']) ++
        ('(' :: (xh :: (xt ++ ['.', 'm', 'd', ')']))) := by
    simp
  have hfa : linkFindall
      ((xh :: xt) ++ ['.', 'm', 'd', ' ', '('] ++ ((xh :: xt) ++ ['.', 'm', 'd', ')'])) =
      [xh :: (xt ++ ['.', 'm', 'd'])] := by
    unfold linkFindall
    rw [hL, lfGo_chunk _ _ hchunk]
    exact lf_core xh xt hpl
  unfold reformatLine
  rw [hfa]
  simp only [List.foldl_cons, List.foldl_nil]
  have htake : ((xh :: (xt ++ ['.', 'm', 'd'])) : Str).take
      ((xh :: (xt ++ ['.', 'm', 'd'])).length - 3) = xh :: xt := by
    have hlen : (xh :: (xt ++ ['.', 'm', 'd'])).length - 3 = (xh :: xt).length := by
      simp
    have hsplit : (xh :: (xt ++ ['.', 'm', 'd']) : Str) = (xh :: xt) ++ ['.', 'm', 'd'] := by
      simp
    rw [hlen, hsplit, List.take_left]
  rw [htake]
  show pyGo xh (xt ++ ['.', 'm', 'd']) (xh :: xt)
      ((xh :: xt) ++ ['.', 'm', 'd', ' ', '('] ++ ((xh :: xt) ++ ['.', 'm', 'd', ')'])) 0 =
    (xh :: xt) ++ [' ', '('] ++ ((xh :: xt) ++ [')'])
  have harg : (xh :: xt) ++ ['.', 'm', 'd', ' ', '('] ++ ((xh :: xt) ++ ['.', 'm', 'd', ')']) =
      ((xh :: (xt ++ ['.', 'm', 'd'])) ++
        (' ' :: '(' :: ((xh :: (xt ++ ['.', 'm', 'd'])) ++ [')']))) := by
    simp
  rw [harg, py_core xh (xt ++ ['.', 'm', 'd']) (xh :: xt) hsp hpo hpc]
  simp

/-- C10 (witness): the theorem applied to the name `doc`, giving
`doc.md (doc.md)` rewritten to `doc (doc)`. -/
theorem reformat_strips_all_occurrences_wit :
    ("doc".data : Str) ≠ [] ∧
    reformatLine ("doc".data ++ ".md (".data ++ ("doc".data ++ ".md)".data)) =
      "doc".data ++ " (".data ++ ("doc".data ++ ")".data) := by
  exact ⟨by decide,
    reformat_strips_all_occurrences ("doc".data) (by decide) (by decide)⟩

theorem fvGo_skip (o d : Char) :
    ∀ (a s : Str), fvGo o d (a ++ s) a.length = fvGo o d s 0 := by
  intro a
  induction a with
  | nil => intro s; rfl
  | cons c cs ih =>
    intro s
    simp only [List.cons_append, List.length_cons, fvGo, List.append_eq, ih]

theorem fvGo_chunk (o d : Char) :
    ∀ (a s : Str), (∀ c ∈ a, c ≠ o) → fvGo o d (a ++ s) 0 = fvGo o d s 0 := by
  intro a
  induction a with
  | nil => intro s _; rfl
  | cons c cs ih =>
    intro s h
    have hc : ¬ (c = o) := h c (by simp)
    cases hcs : (cs ++ s : Str) with
    | nil =>
      obtain ⟨h1, h2⟩ := List.append_eq_nil.mp hcs
      subst h1
      subst h2
      rfl
    | cons c2 s2 =>
      conv_lhs => rw [List.cons_append, hcs]
      conv_lhs => rw [fvGo]
      simp only [hc, false_and, if_false]
      rw [← hcs]
      exact ih s (fun x hx => h x (by simp [hx]))

theorem fv_hole (o d : Char) (n rest : Str)
    (hn : ∀ c ∈ n, c ≠ o ∧ c ≠ d) :
    fvGo o d (o :: o :: (n ++ d :: d :: rest)) 0 = n :: fvGo o d rest 0 := by
  have hpred : ∀ c ∈ n, (fun c => !(c == o || c == d)) c = true := by
    intro c hc
    have h := hn c hc
    simp [h.1, h.2]
  have hname : (List.takeWhile (fun c => !(c == o || c == d)) (n ++ d :: d :: rest) : Str) = n := by
    rw [takeWhile_append_all _ n _ hpred]
    simp [List.takeWhile_cons]
  have hafter : (List.drop n.length (n ++ d :: d :: rest) : Str) = d :: d :: rest :=
    List.drop_left n (d :: d :: rest)
  have hbeg : begins [d, d] (d :: d :: rest) = true := by simp [begins]
  have hskip := fvGo_skip o d (o :: (n ++ [d, d])) rest
  simp only [List.cons_append, List.append_assoc, List.nil_append, List.length_cons,
    List.length_append, List.length_nil] at hskip
  conv_lhs => rw [fvGo]
  simp only [hname, hafter, hbeg, and_self, if_true, if_pos, List.cons.injEq, true_and]
  have e : n.length + 3 = n.length + (0 + 1 + 1) + 1 := by omega
  rw [e]
  exact hskip

theorem begins_closed_ne (d : Char) :
    ∀ (kw n s : Str), n ≠ kw → (∀ c ∈ kw, c ≠ d) → (∀ c ∈ n, c ≠ d) →
    begins (kw ++ [d, d]) (n ++ d :: d :: s) = false := by
  intro kw
  induction kw with
  | nil =>
    intro n s hne hkw hn
    cases n with
    | nil => exact absurd rfl hne
    | cons c n2 =>
      have hc : d ≠ c := fun he => (hn c (by simp)) he.symm
      exact begins_head_ne d c [d] (n2 ++ d :: d :: s) hc
  | cons a kw2 ih =>
    intro n s hne hkw hn
    cases n with
    | nil =>
      have ha : a ≠ d := hkw a (by simp)
      exact begins_head_ne a d (kw2 ++ [d, d]) (d :: s) ha
    | cons b n2 =>
      by_cases hab : a = b
      · subst hab
        have hne2 : n2 ≠ kw2 := fun he => hne (by rw [he])
        have h := ih n2 s hne2 (fun c hc => hkw c (by simp [hc]))
          (fun c hc => hn c (by simp [hc]))
        simpa [begins] using h
      · exact begins_head_ne a b (kw2 ++ [d, d]) (n2 ++ d :: d :: s) hab

theorem pyGo_hole_ne (o d : Char) (hod : o ≠ d) (kw v n rest : Str)
    (hne : n ≠ kw) (hn : ∀ c ∈ n, c ≠ o ∧ c ≠ d) (hkw : ∀ c ∈ kw, c ≠ d) :
    pyGo o (o :: (kw ++ [d, d])) v (o :: o :: (n ++ d :: d :: rest)) 0 =
      o :: o :: (n ++ d :: d :: pyGo o (o :: (kw ++ [d, d])) v rest 0) := by
  have hb0 : begins (o :: o :: (kw ++ [d, d])) (o :: o :: (n ++ d :: d :: rest)) = false := by
    have hk := begins_closed_ne d kw n rest hne hkw (fun c hc => (hn c hc).2)
    simp [begins, hk]
  have hb1 : begins (o :: o :: (kw ++ [d, d])) (o :: (n ++ d :: d :: rest)) = false := by
    cases n with
    | nil => simp [begins, hod]
    | cons b n2 =>
      have hb : o ≠ b := fun he => ((hn b (by simp)).1 he.symm)
      simp [begins, hb]
  conv_lhs => rw [pyGo]
  rw [if_neg (by simp [hb0])]
  conv_lhs => rw [pyGo]
  rw [if_neg (by simp [hb1])]
  rw [pyGo_chunk o (o :: (kw ++ [d, d])) v n (d :: d :: rest)
    (fun c hc => (hn c hc).1)]
  rw [pyGo_cons_ne o d (o :: (kw ++ [d, d])) v (d :: rest) hod]
  rw [pyGo_cons_ne o d (o :: (kw ++ [d, d])) v rest hod]

theorem rendSegs_cons (o d : Char) (sg : Seg) (segs : List Seg) :
    rendSegs o d (sg :: segs) = rendSeg o d sg ++ rendSegs o d segs := rfl

theorem findVars_rendSegs (o d : Char) :
    ∀ segs : List Seg, (∀ sg ∈ segs, segOk o d sg) →
    findVars o d (rendSegs o d segs) = holeNames segs := by
  intro segs hsegs
  induction segs with
  | nil => rfl
  | cons sg segs ih =>
    have hsg := hsegs sg (by simp)
    have ihe := ih (fun x hx => hsegs x (by simp [hx]))
    cases sg with
    | raw s =>
      unfold findVars at ihe ⊢
      rw [rendSegs_cons]
      show fvGo o d (s ++ rendSegs o d segs) 0 = holeNames (Seg.raw s :: segs)
      rw [fvGo_chunk o d s _ hsg, ihe]
      rfl
    | hole n =>
      unfold findVars at ihe ⊢
      rw [rendSegs_cons]
      have hshape : rendSeg o d (Seg.hole n) ++ rendSegs o d segs =
          o :: o :: (n ++ d :: d :: rendSegs o d segs) := by
        simp [rendSeg]
      rw [hshape, fv_hole o d n _ hsg, ihe]
      rfl

theorem pyReplace_rendSegs (o d : Char) (hod : o ≠ d) (kw v : Str)
    (hkw : ∀ c ∈ kw, c ≠ d) :
    ∀ segs : List Seg, (∀ sg ∈ segs, segOk o d sg) →
    pyReplace (rendSegs o d segs) (o :: o :: (kw ++ [d, d])) v =
      rendSegs o d (segs.map (substSeg kw v)) := by
  intro segs hsegs
  show pyGo o (o :: (kw ++ [d, d])) v (rendSegs o d segs) 0 =
    rendSegs o d (segs.map (substSeg kw v))
  induction segs with
  | nil => rfl
  | cons sg segs ih =>
    have hsg := hsegs sg (by simp)
    have ihe := ih (fun x hx => hsegs x (by simp [hx]))
    cases sg with
    | raw s =>
      rw [rendSegs_cons]
      show pyGo o (o :: (kw ++ [d, d])) v (s ++ rendSegs o d segs) 0 = _
      rw [pyGo_chunk o _ v s _ hsg, ihe]
      rfl
    | hole n =>
      by_cases hnk : n = kw
      · subst hnk
        rw [rendSegs_cons]
        show pyGo o (o :: (n ++ [d, d])) v
          ((o :: (o :: (n ++ [d, d]))) ++ rendSegs o d segs) 0 = _
        rw [pyGo_match o (o :: (n ++ [d, d])) v (rendSegs o d segs), ihe]
        simp [substSeg, rendSegs_cons, rendSeg]
      · rw [rendSegs_cons]
        have hshape : rendSeg o d (Seg.hole n) ++ rendSegs o d segs =
            o :: o :: (n ++ d :: d :: rendSegs o d segs) := by
          simp [rendSeg]
        rw [hshape, pyGo_hole_ne o d hod kw v n _ hnk hsg hkw, ihe]
        simp [substSeg, hnk, rendSegs_cons, rendSeg]

theorem lookupD_chars (P : Char → Prop) :
    ∀ vars : List (Str × Str), (∀ pr ∈ vars, ∀ c ∈ pr.2, P c) →
    ∀ n : Str, ∀ c ∈ lookupD vars n, P c := by
  intro vars
  induction vars with
  | nil =>
    intro _ n c hc
    simp [lookupD, varLookup] at hc
  | cons pr rest ih =>
    intro h n c hc
    obtain ⟨k, w⟩ := pr
    by_cases hk : k = n
    · have he : lookupD ((k, w) :: rest) n = w := by simp [lookupD, varLookup, hk]
      rw [he] at hc
      exact h (k, w) (by simp) c hc
    · have he : lookupD ((k, w) :: rest) n = lookupD rest n := by
        simp [lookupD, varLookup, hk]
      rw [he] at hc
      exact ih (fun x hx => h x (by simp [hx])) n c hc

theorem segOk_substSeg (o d : Char) (kw v : Str) (hv : ∀ c ∈ v, c ≠ o) :
    ∀ sg : Seg, segOk o d sg → segOk o d (substSeg kw v sg) := by
  intro sg h
  cases sg with
  | raw s => exact h
  | hole n =>
    by_cases hk : n = kw
    · simp only [substSeg, if_pos hk]
      exact hv
    · simp only [substSeg, if_neg hk]
      exact h

theorem foldl_rfmStep (o d : Char) (hod : o ≠ d) (vars : List (Str × Str))
    (hv : ∀ pr ∈ vars, ∀ c ∈ pr.2, c ≠ o) :
    ∀ (kws : List Str) (segs : List Seg) (u0 : List Str),
      (∀ sg ∈ segs, segOk o d sg) →
      (∀ kw ∈ kws, ∀ c ∈ kw, c ≠ d) →
      List.foldl (rfmStep vars o d) (rendSegs o d segs, u0) kws =
        (rendSegs o d (applyKws vars kws segs),
         u0 ++ kws.filter (fun k => (varLookup vars k).isNone)) := by
  intro kws
  induction kws with
  | nil =>
    intro segs u0 _ _
    simp [applyKws]
  | cons kw kws ih =>
    intro segs u0 hsegs hkws
    have hkw : ∀ c ∈ kw, c ≠ d := hkws kw (by simp)
    have hsegs2 : ∀ sg ∈ segs.map (substSeg kw (lookupD vars kw)), segOk o d sg := by
      intro sg hsg
      obtain ⟨sg0, hsg0, rfl⟩ := List.mem_map.mp hsg
      refine segOk_substSeg o d kw _ ?_ sg0 (hsegs sg0 hsg0)
      intro c hc
      exact lookupD_chars (fun c => c ≠ o) vars hv kw c hc
    rw [List.foldl_cons]
    cases hlk : varLookup vars kw with
    | some v =>
      have hstep : rfmStep vars o d (rendSegs o d segs, u0) kw =
          (rendSegs o d (segs.map (substSeg kw (lookupD vars kw))), u0) := by
        simp only [rfmStep, hlk]
        rw [pyReplace_rendSegs o d hod kw v hkw segs hsegs]
        simp [lookupD, hlk]
      rw [hstep, ih _ u0 hsegs2 (fun k hk => hkws k (by simp [hk]))]
      simp [applyKws, List.filter_cons, hlk]
    | none =>
      have hstep : rfmStep vars o d (rendSegs o d segs, u0) kw =
          (rendSegs o d (segs.map (substSeg kw (lookupD vars kw))), u0 ++ [kw]) := by
        simp only [rfmStep, hlk]
        rw [pyReplace_rendSegs o d hod kw [] hkw segs hsegs]
        simp [lookupD, hlk]
      rw [hstep, ih _ (u0 ++ [kw]) hsegs2 (fun k hk => hkws k (by simp [hk]))]
      simp [applyKws, List.filter_cons, hlk]

theorem replaceFromMap_rendSegs (o d : Char) (hod : o ≠ d) (vars : List (Str × Str))
    (hv : ∀ pr ∈ vars, ∀ c ∈ pr.2, c ≠ o)
    (segs : List Seg) (hsegs : ∀ sg ∈ segs, segOk o d sg) :
    replaceFromMap vars o d (rendSegs o d segs) =
      (rendSegs o d (applyKws vars (holeNames segs) segs),
       (holeNames segs).filter (fun k => (varLookup vars k).isNone)) := by
  unfold replaceFromMap
  rw [findVars_rendSegs o d segs hsegs]
  have hkws : ∀ kw ∈ holeNames segs, ∀ c ∈ kw, c ≠ d := by
    intro kw hkw c hc
    obtain ⟨sg, hsg, he⟩ := List.mem_filterMap.mp hkw
    cases sg with
    | raw s => simp at he
    | hole n =>
      have hnk : n = kw := by simpa using he
      subst hnk
      exact (hsegs _ hsg c hc).2
  have h := foldl_rfmStep o d hod vars hv (holeNames segs) segs [] hsegs hkws
  simpa using h

theorem applyKws_covers (vars : List (Str × Str)) :
    ∀ (kws : List Str) (segs : List Seg),
    (∀ n : Str, Seg.hole n ∈ segs → n ∈ kws) →
    applyKws vars kws segs = segs.map (fun sg => match sg with
      | .hole n => .raw (lookupD vars n)
      | .raw s => .raw s) := by
  intro kws
  induction kws with
  | nil =>
    intro segs h
    induction segs with
    | nil => rfl
    | cons sg segs ihs =>
      cases sg with
      | raw s =>
        have ht := ihs (fun n hn => h n (by simp [hn]))
        simp only [applyKws] at ht ⊢
        rw [List.map_cons, ← ht]
      | hole n => exact absurd (h n (by simp)) (by simp)
  | cons kw kws ih =>
    intro segs h
    have hcov : ∀ n : Str, Seg.hole n ∈ segs.map (substSeg kw (lookupD vars kw)) →
        n ∈ kws := by
      intro n hn
      obtain ⟨sg0, hsg0, he⟩ := List.mem_map.mp hn
      cases sg0 with
      | raw s => simp [substSeg] at he
      | hole m =>
        by_cases hm : m = kw
        · simp [substSeg, hm] at he
        · have hmn : m = n := by
            have := he
            simp only [substSeg, if_neg hm] at this
            exact Seg.hole.inj this
          subst hmn
          have hmem := h m hsg0
          simp at hmem
          rcases hmem with hmem | hmem
          · exact absurd hmem hm
          · exact hmem
    have hrec : applyKws vars (kw :: kws) segs =
        applyKws vars kws (segs.map (substSeg kw (lookupD vars kw))) := rfl
    rw [hrec, ih _ hcov, List.map_map]
    apply List.map_congr_left
    intro sg _
    cases sg with
    | raw s => rfl
    | hole m =>
      by_cases hm : m = kw
      · subst hm
        simp [substSeg, Function.comp]
      · simp [substSeg, hm, Function.comp]

theorem renderToks_cons (t : Tok) (ts : List Tok) :
    renderToks (t :: ts) = renderTok t ++ renderToks ts := rfl

theorem specOut_cons (vars : List (Str × Str)) (t : Tok) (ts : List Tok) :
    specOut vars (t :: ts) = specSubTok vars t ++ specOut vars ts := rfl

theorem rendSegs_optView : ∀ ts : List Tok,
    rendSegs '<' '>' (ts.map optView) = renderToks ts := by
  intro ts
  induction ts with
  | nil => rfl
  | cons t ts ih =>
    cases t <;> simp [rendSegs_cons, renderToks_cons, optView, rendSeg, renderTok, ih]

theorem rendSegs_reqView : ∀ ts : List Tok,
    rendSegs '[' ']' (ts.map reqView) = renderToks ts := by
  intro ts
  induction ts with
  | nil => rfl
  | cons t ts ih =>
    cases t <;> simp [rendSegs_cons, renderToks_cons, reqView, rendSeg, renderTok, ih]

theorem holeNames_optView : ∀ ts : List Tok,
    holeNames (ts.map optView) = optNames ts := by
  intro ts
  induction ts with
  | nil => rfl
  | cons t ts ih =>
    cases t <;> simp [holeNames, optNames, List.filterMap_cons, optView, ih] <;>
      simpa [holeNames, optNames] using ih

theorem holeNames_reqView : ∀ ts : List Tok,
    holeNames (ts.map reqView) = reqNames ts := by
  intro ts
  induction ts with
  | nil => rfl
  | cons t ts ih =>
    cases t <;> simp [holeNames, reqNames, List.filterMap_cons, reqView, ih] <;>
      simpa [holeNames, reqNames] using ih

theorem segOk_optView (t : Tok) (h : tokOk t) : segOk '<' '>' (optView t) := by
  cases t with
  | lit s =>
    show ∀ c ∈ s, c ≠ '<'
    intro c hc
    exact (h c hc).2.2.1
  | req n =>
    show ∀ c ∈ '[' :: '[' :: (n ++ [']', ']']), c ≠ '<'
    intro c hc
    rcases List.mem_cons.mp hc with rfl | hc
    · decide
    rcases List.mem_cons.mp hc with rfl | hc
    · decide
    rcases List.mem_append.mp hc with hc | hc
    · exact (h c hc).2.2.1
    rcases List.mem_cons.mp hc with rfl | hc
    · decide
    rcases List.mem_cons.mp hc with rfl | hc
    · decide
    exact absurd hc (List.not_mem_nil c)
  | opt n =>
    show ∀ c ∈ n, c ≠ '<' ∧ c ≠ '>'
    intro c hc
    exact ⟨(h c hc).2.2.1, (h c hc).2.2.2⟩

theorem segOk_reqView (t : Tok) (h : tokOk t) : segOk '[' ']' (reqView t) := by
  cases t with
  | lit s =>
    show ∀ c ∈ s, c ≠ '['
    intro c hc
    exact (h c hc).1
  | opt n =>
    show ∀ c ∈ '<' :: '<' :: (n ++ ['>', '>']), c ≠ '['
    intro c hc
    rcases List.mem_cons.mp hc with rfl | hc
    · decide
    rcases List.mem_cons.mp hc with rfl | hc
    · decide
    rcases List.mem_append.mp hc with hc | hc
    · exact (h c hc).1
    rcases List.mem_cons.mp hc with rfl | hc
    · decide
    rcases List.mem_cons.mp hc with rfl | hc
    · decide
    exact absurd hc (List.not_mem_nil c)
  | req n =>
    show ∀ c ∈ n, c ≠ '[' ∧ c ≠ ']'
    intro c hc
    exact ⟨(h c hc).1, (h c hc).2.1⟩

theorem replaceFromMap_opt (vars : List (Str × Str))
    (hv : ∀ pr ∈ vars, ∀ c ∈ pr.2, cleanChar c)
    (ts : List Tok) (hts : ∀ t ∈ ts, tokOk t) :
    replaceFromMap vars '<' '>' (renderToks ts) =
      (renderToks (ts.map (substOptAll vars)),
       (optNames ts).filter (fun k => (varLookup vars k).isNone)) := by
  have hsegs : ∀ sg ∈ ts.map optView, segOk '<' '>' sg := by
    intro sg hsg
    obtain ⟨t, ht, rfl⟩ := List.mem_map.mp hsg
    exact segOk_optView t (hts t ht)
  have hvo : ∀ pr ∈ vars, ∀ c ∈ pr.2, c ≠ '<' :=
    fun pr hpr c hc => (hv pr hpr c hc).2.2.1
  have h := replaceFromMap_rendSegs '<' '>' (by decide) vars hvo (ts.map optView) hsegs
  rw [rendSegs_optView, holeNames_optView] at h
  have hcov : ∀ n : Str, Seg.hole n ∈ ts.map optView → n ∈ optNames ts := by
    intro n hn
    obtain ⟨t, ht, he⟩ := List.mem_map.mp hn
    cases t with
    | lit s => simp [optView] at he
    | req m => simp [optView] at he
    | opt m =>
      have hmn : m = n := by simpa [optView] using he
      subst hmn
      exact List.mem_filterMap.mpr ⟨Tok.opt m, ht, rfl⟩
  have hfst : rendSegs '<' '>' (applyKws vars (optNames ts) (ts.map optView)) =
      renderToks (ts.map (substOptAll vars)) := by
    rw [applyKws_covers vars (optNames ts) (ts.map optView) hcov, List.map_map]
    have hcomp : ((fun sg => match sg with
        | Seg.hole n => Seg.raw (lookupD vars n)
        | Seg.raw s => Seg.raw s) ∘ optView) = (optView ∘ substOptAll vars) := by
      funext t
      cases t <;> rfl
    rw [hcomp, ← List.map_map, rendSegs_optView]
  rw [h, hfst]

theorem replaceFromMap_req (vars : List (Str × Str))
    (hv : ∀ pr ∈ vars, ∀ c ∈ pr.2, cleanChar c)
    (ts : List Tok) (hts : ∀ t ∈ ts, tokOk t) :
    replaceFromMap vars '[' ']' (renderToks ts) =
      (renderToks (ts.map (substReqAll vars)),
       (reqNames ts).filter (fun k => (varLookup vars k).isNone)) := by
  have hsegs : ∀ sg ∈ ts.map reqView, segOk '[' ']' sg := by
    intro sg hsg
    obtain ⟨t, ht, rfl⟩ := List.mem_map.mp hsg
    exact segOk_reqView t (hts t ht)
  have hvo : ∀ pr ∈ vars, ∀ c ∈ pr.2, c ≠ '[' :=
    fun pr hpr c hc => (hv pr hpr c hc).1
  have h := replaceFromMap_rendSegs '[' ']' (by decide) vars hvo (ts.map reqView) hsegs
  rw [rendSegs_reqView, holeNames_reqView] at h
  have hcov : ∀ n : Str, Seg.hole n ∈ ts.map reqView → n ∈ reqNames ts := by
    intro n hn
    obtain ⟨t, ht, he⟩ := List.mem_map.mp hn
    cases t with
    | lit s => simp [reqView] at he
    | opt m => simp [reqView] at he
    | req m =>
      have hmn : m = n := by simpa [reqView] using he
      subst hmn
      exact List.mem_filterMap.mpr ⟨Tok.req m, ht, rfl⟩
  have hfst : rendSegs '[' ']' (applyKws vars (reqNames ts) (ts.map reqView)) =
      renderToks (ts.map (substReqAll vars)) := by
    rw [applyKws_covers vars (reqNames ts) (ts.map reqView) hcov, List.map_map]
    have hcomp : ((fun sg => match sg with
        | Seg.hole n => Seg.raw (lookupD vars n)
        | Seg.raw s => Seg.raw s) ∘ reqView) = (reqView ∘ substReqAll vars) := by
      funext t
      cases t <;> rfl
    rw [hcomp, ← List.map_map, rendSegs_reqView]
  rw [h, hfst]

theorem tokOk_substOptAll (vars : List (Str × Str))
    (hv : ∀ pr ∈ vars, ∀ c ∈ pr.2, cleanChar c) (t : Tok) (h : tokOk t) :
    tokOk (substOptAll vars t) := by
  cases t with
  | lit s => exact h
  | req n => exact h
  | opt n =>
    show ∀ c ∈ lookupD vars n, cleanChar c
    intro c hc
    exact lookupD_chars cleanChar vars hv n c hc

theorem reqNames_map_substOptAll (vars : List (Str × Str)) :
    ∀ ts : List Tok, reqNames (ts.map (substOptAll vars)) = reqNames ts := by
  intro ts
  induction ts with
  | nil => rfl
  | cons t ts ih =>
    cases t <;> simp [reqNames, substOptAll, List.filterMap_cons] <;>
      simpa [reqNames] using ih

theorem renderToks_subst_both (vars : List (Str × Str)) :
    ∀ ts : List Tok,
    renderToks ((ts.map (substOptAll vars)).map (substReqAll vars)) = specOut vars ts := by
  intro ts
  induction ts with
  | nil => rfl
  | cons t ts ih =>
    simp only [List.map_map] at ih
    cases t <;>
      simp [renderToks_cons, specOut_cons, substOptAll, substReqAll, renderTok,
        specSubTok, List.map_map, ih]

theorem filter_isEmpty_eq_all (p : Str → Bool) :
    ∀ l : List Str, (l.filter p).isEmpty = l.all (fun a => !(p a)) := by
  intro l
  induction l with
  | nil => rfl
  | cons a l ih =>
    cases hp : p a <;> simp [List.filter_cons, hp, List.all_cons, ih]

theorem all_not_isNone (vars : List (Str × Str)) :
    ∀ l : List Str,
    (l.all fun n => !((varLookup vars n).isNone)) =
      (l.all fun n => (varLookup vars n).isSome) := by
  intro l
  induction l with
  | nil => rfl
  | cons a l ih =>
    cases h : varLookup vars a <;> simp [List.all_cons, h, ih]

/-- C3 (counterexample): substituted values are rewritten by later
replacements.  On the line `[[A]] [[B]]` with map `{A: "[[B]]", B: "y"}`, the
claim requires the occurrence of `[[A]]` (whose name is mapped) to become its
mapped value `[[B]]` and the original occurrence of `[[B]]` to become `y`,
giving `[[B]] y`; the code instead produces `y y`, because the later
whole-line replace of `[[B]]` also rewrites the text just substituted for
`[[A]]`. -/
theorem substitute_value_rescan_cex :
    replaceLineContent [("A".data, "[[B]]".data), ("B".data, "y".data)]
      ("[[A]] [[B]]".data) = ("y y".data, true) ∧
    ("y y".data : Str) ≠ "[[B]] y".data := by
  exact ⟨by decide, by decide⟩

/-- C3 (amended): for every line that is a sequence of delimiter-free literal
text and well-formed placeholders, and every variable map whose values
contain no placeholder-delimiter characters, `_replace_line_content` replaces
every occurrence of each required placeholder `[[NAME]]` with mapped `NAME`
by its value, every occurrence of a required placeholder with unmapped
`NAME` by the empty string making overall success false, and every
occurrence of an optional placeholder `<<NAME>>` with unmapped `NAME` by the
empty string without affecting success — the output is exactly the rendering
with each placeholder replaced by its (defaulted) value, and success holds
exactly when every required name is mapped.  In general the claim fails
(see the counterexample): a substituted value containing placeholder text is
itself rewritten by later replacements. -/
theorem substitute_spec_of_clean (vars : List (Str × Str)) (ts : List Tok)
    (hts : ∀ t ∈ ts, tokOk t)
    (hv : ∀ pr ∈ vars, ∀ c ∈ pr.2, cleanChar c) :
    replaceLineContent vars (renderToks ts) =
      (specOut vars ts, specSuccess vars ts) := by
  have hts1 : ∀ t ∈ ts.map (substOptAll vars), tokOk t := by
    intro t ht
    obtain ⟨t0, ht0, rfl⟩ := List.mem_map.mp ht
    exact tokOk_substOptAll vars hv t0 (hts t0 ht0)
  show ((replaceFromMap vars '[' ']'
      (replaceFromMap vars '<' '>' (renderToks ts)).1).1,
    (replaceFromMap vars '[' ']'
      (replaceFromMap vars '<' '>' (renderToks ts)).1).2.isEmpty) = _
  rw [replaceFromMap_opt vars hv ts hts]
  dsimp only
  rw [replaceFromMap_req vars hv (ts.map (substOptAll vars)) hts1]
  dsimp only
  rw [renderToks_subst_both vars ts, reqNames_map_substOptAll vars ts,
    filter_isEmpty_eq_all]
  rw [all_not_isNone]
  rfl

/-- C3 (witness): the theorem applied to the example line
`See [[GREETING]], <<NAME>> <<NAME>>!` with map `{GREETING: "hi"}`, giving
`See hi,  !` with success true. -/
theorem substitute_spec_of_clean_wit :
    renderToks toksExample = ("See [[GREETING]], <<NAME>> <<NAME>>!".data : Str) ∧
    replaceLineContent varsExample
      ("See [[GREETING]], <<NAME>> <<NAME>>!".data) = ("See hi,  !".data, true) := by
  have h := substitute_spec_of_clean varsExample toksExample (by decide) (by decide)
  refine ⟨by decide, ?_⟩
  have e : ("See [[GREETING]], <<NAME>> <<NAME>>!".data : Str) = renderToks toksExample := by
    decide
  rw [e, h]
  decide

/-- C7 (counterexample): placeholder text introduced into the line by an
earlier replacement is substituted by a later pass.  With the optional
`NAME` mapped to the literal text `[[X]]` and `X` mapped to `hi`, the line
`<<NAME>>` becomes `hi`: the required pass runs `findall` on the output of
the optional pass and so rewrites the freshly inserted `[[X]]`, refuting the
claim that substituted values are never re-scanned. -/
theorem optional_value_required_rescan_cex :
    replaceLineContent [("NAME".data, "[[X]]".data), ("X".data, "hi".data)]
      ("<<NAME>>".data) = ("hi".data, true) ∧
    ("hi".data : Str) ≠ "[[X]]".data := by
  exact ⟨by decide, by decide⟩

/-- C7 (amended): the required pass re-scans the output of the optional
pass: for every value `v`, mapping the optional `NAME` to the literal text
`[[X]]` and `X` to `v` turns the line `<<NAME>>` into `v` with success true —
the inserted `[[X]]` is found and substituted by the required pass.
Re-scanning stops there: a placeholder inside `v` itself would not be
replaced, since the required pass collected its keywords before inserting
`v`. -/
theorem optional_value_rescanned_by_required (v : Str) :
    replaceLineContent [("NAME".data, "[[X]]".data), ("X".data, v)]
      ("<<NAME>>".data) = (v, true) := by
  have hrep : pyReplace ("[[X]]".data) ('[' :: '[' :: ("X".data ++ [']', ']'])) v = v := by
    show pyGo '[' ('[' :: ("X".data ++ [']', ']'])) v ("[[X]]".data) 0 = v
    have hpat : ("[[X]]".data : Str) =
        ('[' :: ('[' :: ("X".data ++ [']', ']']))) ++ [] := by decide
    rw [hpat, pyGo_match '[' ('[' :: ("X".data ++ [']', ']'])) v []]
    simp [pyGo]
  have h1 : replaceFromMap [("NAME".data, "[[X]]".data), ("X".data, v)] '<' '>'
      ("<<NAME>>".data) = ("[[X]]".data, []) := by
    unfold replaceFromMap
    rw [show findVars '<' '>' ("<<NAME>>".data) = ["NAME".data] from by decide]
    simp only [List.foldl_cons, List.foldl_nil, rfmStep]
    rw [show varLookup [("NAME".data, "[[X]]".data), ("X".data, v)] ("NAME".data) =
      some ("[[X]]".data) from by rw [varLookup, if_pos rfl]]
    decide
  have h2 : replaceFromMap [("NAME".data, "[[X]]".data), ("X".data, v)] '[' ']'
      ("[[X]]".data) = (v, []) := by
    unfold replaceFromMap
    rw [show findVars '[' ']' ("[[X]]".data) = ["X".data] from by decide]
    simp only [List.foldl_cons, List.foldl_nil, rfmStep]
    rw [show varLookup [("NAME".data, "[[X]]".data), ("X".data, v)] ("X".data) =
      some v from by rw [varLookup, if_neg (by decide), varLookup, if_pos rfl]]
    dsimp only
    rw [hrep]
  show ((replaceFromMap [("NAME".data, "[[X]]".data), ("X".data, v)] '[' ']'
      (replaceFromMap [("NAME".data, "[[X]]".data), ("X".data, v)] '<' '>'
        ("<<NAME>>".data)).1).1,
    (replaceFromMap [("NAME".data, "[[X]]".data), ("X".data, v)] '[' ']'
      (replaceFromMap [("NAME".data, "[[X]]".data), ("X".data, v)] '<' '>'
        ("<<NAME>>".data)).1).2.isEmpty) = (v, true)
  rw [h1]
  dsimp only
  rw [h2]
  rfl

end FilesHandling
